import Mathlib

set_option maxRecDepth 100000

/-!
Verification development for the K-modal-logic prefixed signed tableau solver
of `full_code.py` (class `Tableaux` together with `is_closed` and
`custom_parse_formula`).

The Python program is embedded shallowly:

* the `Formula` dataclass hierarchy becomes an inductive type;
* the mutable solver object (`self.accessibility`, `self.new_world_created`,
  the branch list) becomes explicit state passing through a `TState` record;
* the recursive `expand_branch` (whose recursion depth is capped by the
  guard `depth > 100`) becomes a structurally recursive function on the
  remaining fuel `101 - depth`, so that `fuel = 0` is exactly the guard
  condition `depth > 100`;
* the order in which rules fire (printed by `apply_rule` in the source) is
  recorded in a `trace` field, and the depth-guard warning print is recorded
  in a `guard` flag, so that the selection order and the guard become
  observable values;
* the visualization bookkeeping of the source (`add_node`, `self.tree`,
  `self.graph`, pydot/networkx calls) is omitted: it never feeds back into
  the decision, and the specification declares rendering out of scope.

Python `defaultdict(set)` accessibility maps become association lists from
world prefixes to duplicate-free successor lists; reading a missing key
yields the empty set, exactly as the defaultdict does.
-/

/-- The formula AST of the source: `Atom`, `Not`, n-ary `And` / `Or`,
`Implies`, `Box` (`[]`) and `Diamond` (`<>`), from `full_code.py` lines 40-78. -/
inductive Formula where
  | Atom : String → Formula
  | Not : Formula → Formula
  | And : List Formula → Formula
  | Or : List Formula → Formula
  | Implies : Formula → Formula → Formula
  | Box : Formula → Formula
  | Diamond : Formula → Formula
deriving Repr

mutual

/-- Structural (boolean) equality of formulas; Python dataclass `==`. -/
def Formula.beq : Formula → Formula → Bool
  | .Atom a, .Atom b => a == b
  | .Not f, .Not g => Formula.beq f g
  | .And fs, .And gs => Formula.beqList fs gs
  | .Or fs, .Or gs => Formula.beqList fs gs
  | .Implies a b, .Implies c d => Formula.beq a c && Formula.beq b d
  | .Box f, .Box g => Formula.beq f g
  | .Diamond f, .Diamond g => Formula.beq f g
  | _, _ => false

/-- Pointwise structural equality of formula lists. -/
def Formula.beqList : List Formula → List Formula → Bool
  | [], [] => true
  | f :: fs, g :: gs => Formula.beq f g && Formula.beqList fs gs
  | _, _ => false

end

mutual

/-- `Formula.beq` decides propositional equality. -/
theorem Formula.beq_iff_eq : ∀ a b : Formula, Formula.beq a b = true ↔ a = b
  | .Atom _, .Atom _ => by simp [Formula.beq]
  | .Not f, .Not g => by simp [Formula.beq, Formula.beq_iff_eq f g]
  | .And fs, .And gs => by simp [Formula.beq, Formula.beqList_iff_eq fs gs]
  | .Or fs, .Or gs => by simp [Formula.beq, Formula.beqList_iff_eq fs gs]
  | .Implies a b, .Implies c d => by
      simp [Formula.beq, Formula.beq_iff_eq a c, Formula.beq_iff_eq b d]
  | .Box f, .Box g => by simp [Formula.beq, Formula.beq_iff_eq f g]
  | .Diamond f, .Diamond g => by simp [Formula.beq, Formula.beq_iff_eq f g]
  | .Atom _, .Not _ => by simp [Formula.beq]
  | .Atom _, .And _ => by simp [Formula.beq]
  | .Atom _, .Or _ => by simp [Formula.beq]
  | .Atom _, .Implies _ _ => by simp [Formula.beq]
  | .Atom _, .Box _ => by simp [Formula.beq]
  | .Atom _, .Diamond _ => by simp [Formula.beq]
  | .Not _, .Atom _ => by simp [Formula.beq]
  | .Not _, .And _ => by simp [Formula.beq]
  | .Not _, .Or _ => by simp [Formula.beq]
  | .Not _, .Implies _ _ => by simp [Formula.beq]
  | .Not _, .Box _ => by simp [Formula.beq]
  | .Not _, .Diamond _ => by simp [Formula.beq]
  | .And _, .Atom _ => by simp [Formula.beq]
  | .And _, .Not _ => by simp [Formula.beq]
  | .And _, .Or _ => by simp [Formula.beq]
  | .And _, .Implies _ _ => by simp [Formula.beq]
  | .And _, .Box _ => by simp [Formula.beq]
  | .And _, .Diamond _ => by simp [Formula.beq]
  | .Or _, .Atom _ => by simp [Formula.beq]
  | .Or _, .Not _ => by simp [Formula.beq]
  | .Or _, .And _ => by simp [Formula.beq]
  | .Or _, .Implies _ _ => by simp [Formula.beq]
  | .Or _, .Box _ => by simp [Formula.beq]
  | .Or _, .Diamond _ => by simp [Formula.beq]
  | .Implies _ _, .Atom _ => by simp [Formula.beq]
  | .Implies _ _, .Not _ => by simp [Formula.beq]
  | .Implies _ _, .And _ => by simp [Formula.beq]
  | .Implies _ _, .Or _ => by simp [Formula.beq]
  | .Implies _ _, .Box _ => by simp [Formula.beq]
  | .Implies _ _, .Diamond _ => by simp [Formula.beq]
  | .Box _, .Atom _ => by simp [Formula.beq]
  | .Box _, .Not _ => by simp [Formula.beq]
  | .Box _, .And _ => by simp [Formula.beq]
  | .Box _, .Or _ => by simp [Formula.beq]
  | .Box _, .Implies _ _ => by simp [Formula.beq]
  | .Box _, .Diamond _ => by simp [Formula.beq]
  | .Diamond _, .Atom _ => by simp [Formula.beq]
  | .Diamond _, .Not _ => by simp [Formula.beq]
  | .Diamond _, .And _ => by simp [Formula.beq]
  | .Diamond _, .Or _ => by simp [Formula.beq]
  | .Diamond _, .Implies _ _ => by simp [Formula.beq]
  | .Diamond _, .Box _ => by simp [Formula.beq]

/-- `Formula.beqList` decides propositional equality of lists. -/
theorem Formula.beqList_iff_eq : ∀ fs gs : List Formula, Formula.beqList fs gs = true ↔ fs = gs
  | [], [] => by simp [Formula.beqList]
  | f :: fs, g :: gs => by
      simp [Formula.beqList, Formula.beq_iff_eq f g, Formula.beqList_iff_eq fs gs]
  | [], _ :: _ => by simp [Formula.beqList]
  | _ :: _, [] => by simp [Formula.beqList]

end

instance : DecidableEq Formula :=
  fun a b => decidable_of_iff (Formula.beq a b = true) (Formula.beq_iff_eq a b)

/-- A signed prefixed formula `(sign, world, formula)`;
the tuples stored on branches in the source. -/
abbrev SPF : Type := Bool × String × Formula

/-- `Branch = List[Tuple[bool, str, Formula]]` (source line 81). -/
abbrev Branch : Type := List SPF

/-- The accessibility store `self.accessibility : defaultdict(set)`:
an association list from a world prefix to its list of successor worlds
(duplicate-free, insertion ordered). A missing key denotes the empty set. -/
abbrev AccMap : Type := List (String × List String)

/-- `self.accessibility[w]` read as a set: the successor list of `w`,
empty when `w` has no entry. -/
def successors (acc : AccMap) (w : String) : List String :=
  (((acc.find? fun e => e.1 == w).map Prod.snd).getD [])

/-- `self.accessibility[w].add(w2)`: insert `w2` into the successor set of
`w` (a no-op when already present, as for a Python set). -/
def addEdge (acc : AccMap) (w w2 : String) : AccMap :=
  if w2 ∈ successors acc w then acc
  else if acc.any fun e => e.1 == w then
    acc.map fun e => if e.1 == w then (w, successors acc w ++ [w2]) else e
  else acc ++ [(w, successors acc w ++ [w2])]

/-- `is_closed(branch, accessibility)` (source lines 92-106): group the
atoms on the branch by world; the branch is closed iff at some world the
positive and negative atom sets intersect. The `accessibility` argument is
received but never consulted, exactly as in the source. -/
def is_closed (branch : Branch) (accessibility : AccMap) : Bool :=
  let worlds := (branch.filterMap fun t =>
    match t.2.2 with
    | Formula.Atom _ => some t.2.1
    | _ => none).dedup
  worlds.any fun w =>
    let pos := branch.filterMap fun t =>
      match t with
      | (true, w2, Formula.Atom p) => if w2 = w then some p else none
      | _ => none
    let neg := branch.filterMap fun t =>
      match t with
      | (false, w2, Formula.Atom p) => if w2 = w then some p else none
      | _ => none
    pos.any fun p => neg.contains p

/-- `Tableaux.apply_rule` (source lines 254-303) as a pure function: maps a
signed prefixed formula and the current accessibility store to the list of
branch fragments, the updated store, and whether a new world was created
(`self.new_world_created`). -/
def apply_rule (sign : Bool) (pfx : String) (f : Formula) (acc : AccMap) :
    List (List SPF) × AccMap × Bool :=
  match f with
  | .Atom _ => ([], acc, false)
  | .Not g => ([[(!sign, pfx, g)]], acc, false)
  | .And conjuncts =>
      if sign then ([conjuncts.map fun conj => (true, pfx, conj)], acc, false)
      else (conjuncts.map fun conj => [(false, pfx, conj)], acc, false)
  | .Or disjuncts =>
      if sign then (disjuncts.map fun disj => [(true, pfx, disj)], acc, false)
      else ([disjuncts.map fun disj => (false, pfx, disj)], acc, false)
  | .Implies l r =>
      if sign then ([[(false, pfx, l)], [(true, pfx, r)]], acc, false)
      else ([[(true, pfx, l), (false, pfx, r)]], acc, false)
  | .Box g =>
      if sign then
        let result := (successors acc pfx).map fun w => (true, w, g)
        (if result.isEmpty then [] else [result], acc, false)
      else
        let newWorld := pfx ++ "." ++ toString ((successors acc pfx).length + 1)
        ([[(false, newWorld, g)]], addEdge acc pfx newWorld, true)
  | .Diamond g =>
      if sign then
        let newWorld := pfx ++ "." ++ toString ((successors acc pfx).length + 1)
        ([[(true, newWorld, g)]], addEdge acc pfx newWorld, true)
      else
        let result := (successors acc pfx).map fun w => (false, w, g)
        (if result.isEmpty then [] else [result], acc, false)

/-- The solver state threaded through expansion: the accessibility store,
the `new_world_created` flag, whether the depth guard ever fired (the
warning print at source line 190), and the trace of signed prefixed
formulas whose rule output was used, in firing order (the successful
`apply_rule` calls, printed at source line 255). -/
structure TState where
  acc : AccMap
  newWorld : Bool
  guard : Bool
  trace : List SPF
deriving Repr

/-- Result of expanding one branch: the produced branches and the state. -/
structure ExpandOut where
  branches : List Branch
  st : TState
deriving Repr

/-- Does the signed prefixed formula match `isinstance(formula, Box) and not sign`? -/
def isFBox : SPF → Bool
  | (false, _, Formula.Box _) => true
  | _ => false

/-- Does the signed prefixed formula match `isinstance(formula, Box) and sign`? -/
def isTBox : SPF → Bool
  | (true, _, Formula.Box _) => true
  | _ => false

/-- Does the signed prefixed formula match `isinstance(formula, Or) and sign`
(the special disjunction treatment at source line 228)? -/
def isTOr : SPF → Bool
  | (true, _, Formula.Or _) => true
  | _ => false

/-- The two `continue` conditions of the middle loop of `expand_branch`
(source lines 210-216): atoms are skipped and `T Box` formulas deferred. -/
def skipsExpansion (spf : SPF) : Bool :=
  match spf with
  | (_, _, Formula.Atom _) => true
  | (true, _, Formula.Box _) => true
  | _ => false

/-- Body of `for new_branch in result: ... if expanded_branches: return`
in the two box loops of `expand_branch` (source lines 202-206 and 243-247):
for each fragment build `branch[:i] + fragment + branch[i+1:]`, recurse, and
return the first nonempty recursive result. -/
def tryFrags (ih : Branch → TState → ExpandOut) (i : Nat) (branch : Branch) :
    List (List SPF) → TState → Option (List Branch) × TState
  | [], st => (none, st)
  | frag :: rest, st =>
      let newFull := branch.take i ++ frag ++ branch.drop (i + 1)
      let out := ih newFull st
      if out.branches.isEmpty then tryFrags ih i branch rest out.st
      else (some out.branches, out.st)

/-- The `f_box_formulas` / `t_box_formulas` loops of `expand_branch`
(source lines 196-206 and 237-247): walk the filtered, enumerated entries,
apply the rule, and on a truthy result expand its fragments. -/
def boxLoop (ih : Branch → TState → ExpandOut) (branch : Branch) :
    List (Nat × SPF) → TState → Option (List Branch) × TState
  | [], st => (none, st)
  | (i, (sgn, w, f)) :: rest, st =>
      let (result, acc2, nw) := apply_rule sgn w f st.acc
      let st2 : TState := { st with acc := acc2, newWorld := st.newWorld || nw }
      if result.isEmpty then boxLoop ih branch rest st2
      else
        let st3 : TState := { st2 with trace := st2.trace ++ [(sgn, w, f)] }
        match tryFrags ih i branch result st3 with
        | (some bs, stOut) => (some bs, stOut)
        | (none, stOut) => boxLoop ih branch rest stOut

/-- The `for sub_branch in new_branch` loop of the `T Or` case of
`expand_branch` (source lines 228-231): each disjunct is expanded on the
branch `[sub_branch] + new_full_branch[i+1:]` (note: this drops the part of
the branch before position `i`, exactly as the source does). -/
def orSubLoop (ih : Branch → TState → ExpandOut) (tail : Branch) :
    List SPF → TState → List Branch × TState
  | [], st => ([], st)
  | sub :: subs, st =>
      let out := ih ([sub] ++ tail) st
      let (bs, st2) := orSubLoop ih tail subs out.st
      (out.branches ++ bs, st2)

/-- The `for new_branch in result` loop of the middle section of
`expand_branch` (source lines 222-234): expand each fragment, with the
special `T Or` treatment, and concatenate all resulting branches. -/
def branchFrags (ih : Branch → TState → ExpandOut) (i : Nat) (spf : SPF) (branch : Branch) :
    List (List SPF) → TState → List Branch × TState
  | [], st => ([], st)
  | frag :: rest, st =>
      let newFull := branch.take i ++ frag ++ branch.drop (i + 1)
      let (bs1, st1) :=
        if isTOr spf then orSubLoop ih (newFull.drop (i + 1)) frag st
        else
          let out := ih newFull st
          (out.branches, out.st)
      let (bs2, st2) := branchFrags ih i spf branch rest st1
      (bs1 ++ bs2, st2)

/-- The middle `for i, (sign, prefix, formula) in enumerate(branch)` loop of
`expand_branch` (source lines 209-234): skip atoms, defer `T Box`, apply the
rule to the first remaining formula with a truthy result and return its
expansion. -/
def mainLoop (ih : Branch → TState → ExpandOut) (branch : Branch) :
    Nat → List SPF → TState → Option (List Branch) × TState
  | _, [], st => (none, st)
  | i, spf :: rest, st =>
      if skipsExpansion spf then mainLoop ih branch (i + 1) rest st
      else
        let (result, acc2, nw) := apply_rule spf.1 spf.2.1 spf.2.2 st.acc
        let st2 : TState := { st with acc := acc2, newWorld := st.newWorld || nw }
        if result.isEmpty then mainLoop ih branch (i + 1) rest st2
        else
          let st3 : TState := { st2 with trace := st2.trace ++ [spf] }
          let (bs, stOut) := branchFrags ih i spf branch result st3
          (some bs, stOut)

/-- One level of `Tableaux.expand_branch` (source lines 185-252), with the
recursive occurrences abstracted as `ih`: first the `F Box` formulas, then
the main loop, then the deferred `T Box` formulas, and otherwise the branch
unchanged. -/
def expandStep (ih : Branch → TState → ExpandOut) (branch : Branch) (st : TState) : ExpandOut :=
  match boxLoop ih branch (branch.enum.filter fun p => isFBox p.2) st with
  | (some bs, st1) => ⟨bs, st1⟩
  | (none, st1) =>
      match mainLoop ih branch 0 branch st1 with
      | (some bs, st2) => ⟨bs, st2⟩
      | (none, st2) =>
          match boxLoop ih branch (branch.enum.filter fun p => isTBox p.2) st2 with
          | (some bs, st3) => ⟨bs, st3⟩
          | (none, st3) => ⟨[branch], st3⟩

/-- `Tableaux.expand_branch` with the recursion depth expressed as remaining
fuel: `fuel = 101 - depth`, so `fuel = 0` is exactly the depth guard
`depth > 100` (source lines 189-191), which returns `[branch]` unchanged and
is recorded in the `guard` flag. Calls from `expand` start at depth `0`,
i.e. fuel `101`. -/
def expand_branch : Nat → Branch → TState → ExpandOut
  | 0, branch, st => ⟨[branch], { st with guard := true }⟩
  | fuel + 1, branch, st => expandStep (expand_branch fuel) branch st

/-- `Tableaux.expand` (source lines 178-183): expand every branch and
concatenate the results. -/
def expand (fuel : Nat) : List Branch → TState → List Branch × TState
  | [], st => ([], st)
  | b :: bs, st =>
      let out := expand_branch fuel b st
      let (rest, st2) := expand fuel bs out.st
      (out.branches ++ rest, st2)

/-- The `for iteration in range(max_iterations)` loop of `Tableaux.solve`
(source lines 146-159): reset `new_world_created`, expand all branches, and
stop at the first fixpoint. (`apply_deferred_expansions` is a no-op in the
source: nothing is ever appended to `self.deferred_expansions`.) -/
def solveLoop : Nat → List Branch → TState → List Branch × TState
  | 0, branches, st => (branches, st)
  | n + 1, branches, st =>
      let st0 : TState := { st with newWorld := false }
      let (newBranches, st1) := expand 101 branches st0
      if newBranches = branches then (branches, st1)
      else solveLoop n newBranches st1

/-- `Tableaux.solve` (source lines 145-165): run the iteration loop, then
return whether every branch is closed, together with the final branches and
state. -/
def solve (branches : List Branch) (st : TState) (maxIterations : Nat) :
    Bool × List Branch × TState :=
  let (bs, st2) := solveLoop maxIterations branches st
  (bs.all fun b => is_closed b st2.acc, bs, st2)

/-- The fresh solver state of `Tableaux.__init__` (source lines 110-120):
`accessibility["1"] = set()`, no new world, guard not fired, empty trace. -/
def initState : TState := { acc := [("1", [])], newWorld := false, guard := false, trace := [] }

/-- The seeding of `check_satisfiability` (source line 142):
`self.branches = [[(False, "1", self.formula)]]`. -/
def checkSatSeed (f : Formula) : List Branch := [[(false, "1", f)]]

/-- One full `check_satisfiability` run, exposing besides the boolean also
the final branches and state (`solve` is called on the seeded branch list
with a fresh solver state). -/
def checkSatRun (f : Formula) (maxIterations : Nat) : Bool × List Branch × TState :=
  solve (checkSatSeed f) initState maxIterations

/-- `Tableaux.check_satisfiability` (source lines 141-143): seed with
`(False, "1", formula)` and return `not self.solve(max_iterations)`.
The source's default for `max_iterations` is `1000`. -/
def check_satisfiability (f : Formula) (maxIterations : Nat) : Bool :=
  !(checkSatRun f maxIterations).1

/-- `Tableaux.check_validity` (source lines 130-139): return `True` iff
`check_satisfiability` (of the same stored formula) returns `False`. -/
def check_validity (f : Formula) (maxIterations : Nat) : Bool :=
  let is_negation_satisfiable := check_satisfiability f maxIterations
  if !is_negation_satisfiable then true else false

/-- The preprocessing of `custom_parse_formula` (source lines 486-488):
remove all spaces, then rewrite the unicode box to `[]` and the unicode
diamond to `<>`. -/
def sanitize (s : String) : List Char :=
  ((s.data.filter fun c => c ≠ ' ').map fun c =>
    if c = '□' then ['[', ']'] else if c = '♢' then ['<', '>'] else [c]).flatten

/-- `parse_atom` (source lines 490-493): a single alphabetic character.
Parse errors (Python `ValueError`) are modelled as `none`. -/
def parse_atom (cs : List Char) (i : Nat) : Option (Formula × Nat) :=
  match cs.get? i with
  | some c => if c.isAlpha then some (Formula.Atom (String.mk [c]), i + 1) else none
  | none => none

mutual

/-- `parse_not` (source lines 495-499). The `fuel` argument (also in the
functions below) only bounds the recursion depth of the embedded parser;
`custom_parse_formula` supplies more fuel than any input can consume. -/
def parse_not (fuel : Nat) (cs : List Char) (i : Nat) : Option (Formula × Nat) :=
  match fuel with
  | 0 => none
  | fuel + 1 =>
      if cs.get? i = some '~' then
        match parse_modal fuel cs (i + 1) with
        | some (f, j) => some (Formula.Not f, j)
        | none => none
      else parse_modal fuel cs i
termination_by structural fuel

/-- `parse_modal` (source lines 501-509). -/
def parse_modal (fuel : Nat) (cs : List Char) (i : Nat) : Option (Formula × Nat) :=
  match fuel with
  | 0 => none
  | fuel + 1 =>
      if i < cs.length - 1 ∧ cs.get? i = some '[' ∧ cs.get? (i + 1) = some ']' then
        match parse_not fuel cs (i + 2) with
        | some (f, j) => some (Formula.Box f, j)
        | none => none
      else if i < cs.length - 1 ∧ cs.get? i = some '<' ∧ cs.get? (i + 1) = some '>' then
        match parse_not fuel cs (i + 2) with
        | some (f, j) => some (Formula.Diamond f, j)
        | none => none
      else parse_parentheses fuel cs i
termination_by structural fuel

/-- `parse_or` (source lines 511-516): `|` iterates over `parse_not`. -/
def parse_or (fuel : Nat) (cs : List Char) (i : Nat) : Option (Formula × Nat) :=
  match fuel with
  | 0 => none
  | fuel + 1 =>
      match parse_not fuel cs i with
      | some (left, j) => parse_or_loop fuel cs left j
      | none => none
termination_by structural fuel

/-- The `while` loop of `parse_or`. -/
def parse_or_loop (fuel : Nat) (cs : List Char) (left : Formula) (i : Nat) :
    Option (Formula × Nat) :=
  match fuel with
  | 0 => none
  | fuel + 1 =>
      if cs.get? i = some '|' then
        match parse_not fuel cs (i + 1) with
        | some (right, j) => parse_or_loop fuel cs (Formula.Or [left, right]) j
        | none => none
      else some (left, i)
termination_by structural fuel

/-- `parse_and` (source lines 518-523): `&` iterates over `parse_or`. -/
def parse_and (fuel : Nat) (cs : List Char) (i : Nat) : Option (Formula × Nat) :=
  match fuel with
  | 0 => none
  | fuel + 1 =>
      match parse_or fuel cs i with
      | some (left, j) => parse_and_loop fuel cs left j
      | none => none
termination_by structural fuel

/-- The `while` loop of `parse_and`. -/
def parse_and_loop (fuel : Nat) (cs : List Char) (left : Formula) (i : Nat) :
    Option (Formula × Nat) :=
  match fuel with
  | 0 => none
  | fuel + 1 =>
      if cs.get? i = some '&' then
        match parse_or fuel cs (i + 1) with
        | some (right, j) => parse_and_loop fuel cs (Formula.And [left, right]) j
        | none => none
      else some (left, i)
termination_by structural fuel

/-- `parse_implies` (source lines 525-530): right associative via the
recursive call for the right-hand side. -/
def parse_implies (fuel : Nat) (cs : List Char) (i : Nat) : Option (Formula × Nat) :=
  match fuel with
  | 0 => none
  | fuel + 1 =>
      match parse_and fuel cs i with
      | some (left, j) =>
          if j < cs.length - 1 ∧ cs.get? j = some '-' ∧ cs.get? (j + 1) = some '>' then
            match parse_implies fuel cs (j + 2) with
            | some (right, k) => some (Formula.Implies left right, k)
            | none => none
          else some (left, j)
      | none => none
termination_by structural fuel

/-- `parse_parentheses` (source lines 532-538). -/
def parse_parentheses (fuel : Nat) (cs : List Char) (i : Nat) : Option (Formula × Nat) :=
  match fuel with
  | 0 => none
  | fuel + 1 =>
      if cs.get? i = some '(' then
        match parse_implies fuel cs (i + 1) with
        | some (f, j) => if cs.get? j = some ')' then some (f, j + 1) else none
        | none => none
      else parse_atom cs i
termination_by structural fuel

end

/-- `custom_parse_formula` (source lines 485-543): sanitize, parse a
top-level implication, and reject trailing input. The fuel bound
`8 * length + 16` exceeds the recursion depth the source parser can reach
on the sanitized input (each nesting level consumes a bounded number of
calls and strictly advances the position). -/
def custom_parse_formula (s : String) : Option Formula :=
  let cs := sanitize s
  match parse_implies (8 * cs.length + 16) cs 0 with
  | some (f, i) => if i < cs.length then none else some f
  | none => none

example :
    custom_parse_formula "p & q | r" =
      some (Formula.And [Formula.Atom "p", Formula.Or [Formula.Atom "q", Formula.Atom "r"]]) := by
  decide

example :
    custom_parse_formula "p -> q -> r" =
      some (Formula.Implies (Formula.Atom "p")
        (Formula.Implies (Formula.Atom "q") (Formula.Atom "r"))) := by decide

example :
    custom_parse_formula "p & ~p" =
      some (Formula.And [Formula.Atom "p", Formula.Not (Formula.Atom "p")]) := by decide

example :
    custom_parse_formula "□(p -> q)" =
      some (Formula.Box (Formula.Implies (Formula.Atom "p") (Formula.Atom "q"))) := by decide

/-- Iterated negation `~^n φ`, used to drive the recursion past the depth guard. -/
def iterNot : Nat → Formula → Formula
  | 0, f => f
  | n + 1, f => Formula.Not (iterNot n f)

example :
    (expand_branch 101
        [(true, "1", Formula.Or [Formula.Diamond (Formula.Atom "p"), Formula.Box (Formula.Atom "q")])]
        initState).branches =
      [[(true, "1.1", Formula.Atom "p")], [(true, "1.1", Formula.Atom "q")]] := by decide

example :
    (checkSatRun (iterNot 102 (Formula.Atom "p")) 1000).2.2.guard = true := by decide

example :
    check_satisfiability (iterNot 102 (Formula.Atom "p")) 1000 = true := by decide

example :
    check_satisfiability (Formula.And [Formula.Atom "p", Formula.Not (Formula.Atom "p")]) 1000 =
      true := by decide

example :
    check_validity (Formula.Or [Formula.Atom "p", Formula.Not (Formula.Atom "p")]) 1000 =
      true := by decide

example :
    check_satisfiability
      (Formula.Not (Formula.Or [Formula.Atom "p", Formula.Not (Formula.Atom "p")])) 1000 =
      true := by decide

/-! ## Helper lemmas about the accessibility store -/

/-- Reading successors of `w` from a store with head entry `e`. -/
theorem successors_cons (e : String × List String) (rest : AccMap) (w : String) :
    successors (e :: rest) w = if e.1 == w then e.2 else successors rest w := by
  by_cases h : e.1 == w <;> simp [successors, List.find?, h]

/-- Overwriting the entry of `w` in a store that has one. -/
theorem successors_map_set (acc : AccMap) (w : String) (ss : List String)
    (h : (acc.any fun e => e.1 == w) = true) :
    successors (acc.map fun e => if e.1 == w then (w, ss) else e) w = ss := by
  induction acc with
  | nil => simp at h
  | cons e rest ih =>
      by_cases he : e.1 = w
      · simp [List.map_cons, successors_cons, he]
      · rw [List.any_cons, beq_eq_false_iff_ne.mpr he, Bool.false_or] at h
        have he2 : ¬((e.1 == w) = true) := by simp [he]
        rw [List.map_cons, if_neg he2, successors_cons, if_neg he2]
        exact ih h

/-- Appending a fresh entry for `w` to a store that has none. -/
theorem successors_append_new (acc : AccMap) (w : String) (ss : List String)
    (h : (acc.any fun e => e.1 == w) = false) :
    successors (acc ++ [(w, ss)]) w = ss := by
  induction acc with
  | nil => simp [successors_cons]
  | cons e rest ih =>
      simp only [List.any_cons, Bool.or_eq_false_iff, beq_eq_false_iff_ne, ne_eq] at h
      simp [List.cons_append, successors_cons, h.1, ih (by simpa using h.2)]

/-- After `addEdge acc w w2`, the world `w2` is a successor of `w`. -/
theorem mem_successors_addEdge (acc : AccMap) (w w2 : String) :
    w2 ∈ successors (addEdge acc w w2) w := by
  unfold addEdge
  by_cases hmem : w2 ∈ successors acc w
  · rw [if_pos hmem]; exact hmem
  · rw [if_neg hmem]
    by_cases hany : (acc.any fun e => e.1 == w) = true
    · rw [if_pos hany, successors_map_set acc w _ hany]
      exact List.mem_append_right _ (List.mem_singleton.mpr rfl)
    · rw [if_neg hany, successors_append_new acc w _ (Bool.eq_false_iff.mpr hany)]
      exact List.mem_append_right _ (List.mem_singleton.mpr rfl)

/-! ## Claim C10: closure is independent of the accessibility store -/

/-- C10. The closure test never consults the accessibility relation: for
every branch `b` and any two accessibility maps `a1` and `a2`,
`is_closed b a1 = is_closed b a2`; the result depends only on the signed
atoms per world on the branch itself. -/
theorem is_closed_independent_of_accessibility :
    ∀ (b : Branch) (a1 a2 : AccMap), is_closed b a1 = is_closed b a2 :=
  fun _ _ _ => rfl

/-! ## Claim C4: the existential (δ) modal rules -/

/-- C4. Expanding `F, w, Box φ` or `T, w, Diamond φ` allocates the prefix
`w.k` with `k = |successors(w)| + 1` computed on the store before
insertion, inserts the edge `w → w.k` (so `w.k` is a successor of `w`
afterwards), sets the new-world flag, and returns exactly one fragment
holding the single signed prefixed formula `φ` at `w.k` — sign `F` for the
`F Box` rule and sign `T` for the `T Diamond` rule. -/
theorem delta_rules_create_fresh_successor :
    ∀ (w : String) (f : Formula) (acc : AccMap),
      apply_rule false w (Formula.Box f) acc =
        ([[(false, w ++ "." ++ toString ((successors acc w).length + 1), f)]],
          addEdge acc w (w ++ "." ++ toString ((successors acc w).length + 1)), true) ∧
      apply_rule true w (Formula.Diamond f) acc =
        ([[(true, w ++ "." ++ toString ((successors acc w).length + 1), f)]],
          addEdge acc w (w ++ "." ++ toString ((successors acc w).length + 1)), true) ∧
      (w ++ "." ++ toString ((successors acc w).length + 1)) ∈
        successors (apply_rule false w (Formula.Box f) acc).2.1 w ∧
      (w ++ "." ++ toString ((successors acc w).length + 1)) ∈
        successors (apply_rule true w (Formula.Diamond f) acc).2.1 w :=
  fun w f acc =>
    ⟨rfl, rfl, mem_successors_addEdge acc w _, mem_successors_addEdge acc w _⟩

/-! ## Claim C1: the `p & ~p` scenario -/

/-- C1 (code bug). The spec's scenario table demands
`isSatisfiable(p & ~p) = false` and `isValid(p & ~p) = false`, and the
repository's own test suite asserts both as well; but because
`check_satisfiability` seeds the tableau with sign `F` (source line 142),
the code returns `True` for satisfiability of the contradiction `p & ~p`
(the `F`-signed tableau saturates with open branches `F p` and `T p` on
separate branches); validity is `False` as demanded. -/
theorem contradiction_scenario_code_behavior :
    custom_parse_formula "p & ~p" =
        some (Formula.And [Formula.Atom "p", Formula.Not (Formula.Atom "p")]) ∧
      check_satisfiability (Formula.And [Formula.Atom "p", Formula.Not (Formula.Atom "p")]) 1000 =
        true ∧
      check_validity (Formula.And [Formula.Atom "p", Formula.Not (Formula.Atom "p")]) 1000 =
        false := by
  refine ⟨by decide, by decide, by decide⟩

/-! ## Claim C2: the seeding and the returned verdict of `check_satisfiability` -/

/-- C2 (counterexample). The claim says the single initial branch of a
`check_satisfiability` run contains `⟨T, "1", φ⟩`; already for `φ = p` the
seeded branch list `[[(F, "1", p)]]` contains no `T`-signed entry at all
(source line 142 seeds with `False`). -/
theorem checkSat_seed_not_T :
    (true, "1", Formula.Atom "p") ∉ (checkSatSeed (Formula.Atom "p")).flatten ∧
      checkSatSeed (Formula.Atom "p") = [[(false, "1", Formula.Atom "p")]] := by
  refine ⟨by decide, rfl⟩

/-- C2 (amended). `check_satisfiability` runs the driver on a tableau whose
single initial branch contains `⟨F, "1", φ⟩`, and returns `true` iff at
least one branch of the finished tableau is not closed. -/
theorem checkSat_seed_F_and_open_iff :
    ∀ f : Formula,
      checkSatSeed f = [[(false, "1", f)]] ∧
      (check_satisfiability f 1000 = true ↔
        ∃ b ∈ (checkSatRun f 1000).2.1, is_closed b (checkSatRun f 1000).2.2.acc = false) := by
  intro f
  refine ⟨rfl, ?_⟩
  show (!(checkSatRun f 1000).1) = true ↔ _
  have hrun : (checkSatRun f 1000).1 =
      ((checkSatRun f 1000).2.1).all fun b => is_closed b (checkSatRun f 1000).2.2.acc := rfl
  rw [hrun]
  simp [List.all_eq_true]

/-! ## Claim C3: validity via negation -/

/-- C3 (counterexample). The claimed duality
`isValid(φ) ⇔ ¬isSatisfiable(Not φ)` fails on the code at `φ = p | ~p`:
`check_validity (p | ~p) = true`, yet `check_satisfiability (~(p | ~p))`
is also `true` (its `F`-seeded tableau reduces to the `T`-seeded tableau
of `p | ~p`, which has open branches), so `¬isSatisfiable(Not φ) = false`. -/
theorem validity_duality_fails_at_excluded_middle :
    check_validity (Formula.Or [Formula.Atom "p", Formula.Not (Formula.Atom "p")]) 1000 = true ∧
      check_satisfiability
        (Formula.Not (Formula.Or [Formula.Atom "p", Formula.Not (Formula.Atom "p")])) 1000 =
        true := by
  refine ⟨by decide, by decide⟩

/-- C3 (amended). `check_validity` negates the satisfiability entry point
applied to the *same* formula — no negation of the formula is inserted
(source lines 130-139 call `self.check_satisfiability` on the stored
formula): for every formula and iteration bound,
`isValid(φ) = ¬isSatisfiable(φ)`. -/
theorem check_validity_negates_same_formula :
    ∀ (f : Formula) (m : Nat), check_validity f m = !check_satisfiability f m := by
  intro f m
  unfold check_validity
  cases check_satisfiability f m <;> rfl

/-! ## Claim C7: accessibility edges leak across sibling branches -/

/-- C7 (code bug). The solver keeps one shared accessibility store for the
whole tableau, so a world created by a δ rule on one branch is visible to
its β-sibling: running the decision call on `~(<>p | []q)` (whose `F`-seed
immediately yields `T (<>p | []q)` and forks), the first sibling's
`T Diamond` creates world `1.1`, after which the second sibling's `T Box`
(a ν rule) consults `successors("1") = \x7b"1.1"\x7d` and pushes `q` into the
world `1.1` created by its sibling — the finished branches are
`[[T 1.1 p], [T 1.1 q]]`. The claim (and the spec's invariant) says this
must never happen. -/
theorem sibling_branch_sees_delta_world :
    (checkSatRun
        (Formula.Not (Formula.Or [Formula.Diamond (Formula.Atom "p"),
          Formula.Box (Formula.Atom "q")])) 1000).2.1 =
      [[(true, "1.1", Formula.Atom "p")], [(true, "1.1", Formula.Atom "q")]] := by
  decide

/-! ## Claim C8: parser precedence -/

/-- C8 (counterexample). The claim says `&` binds tighter than `|`, so that
`p & q | r` parses as `Or([And([p, q]), r])`; the code's `parse_and` loops
over `parse_or` (source lines 511-523), inverting the two precedences, so
the parse result is not the claimed tree. -/
theorem parser_and_or_precedence_counterexample :
    custom_parse_formula "p & q | r" ≠
      some (Formula.Or [Formula.And [Formula.Atom "p", Formula.Atom "q"], Formula.Atom "r"]) := by
  decide

/-- C8 (amended). The parser gives the binary connectives the precedence
`->` lowest, then `&`, then `|` highest (i.e. `&` and `|` are swapped
relative to the claim), with `->` right-associative:
`p & q | r` yields `And([p, Or([q, r])])` and `p -> q -> r` yields
`Implies(p, Implies(q, r))`. -/
theorem parser_precedence_behavior :
    custom_parse_formula "p & q | r" =
        some (Formula.And [Formula.Atom "p",
          Formula.Or [Formula.Atom "q", Formula.Atom "r"]]) ∧
      custom_parse_formula "p -> q -> r" =
        some (Formula.Implies (Formula.Atom "p")
          (Formula.Implies (Formula.Atom "q") (Formula.Atom "r"))) := by
  refine ⟨by decide, by decide⟩

/-! ## Claim C9: the depth guard -/

/-- C9 (counterexample). On the 102-fold negation of `p` the depth guard
fires (the guard flag of the finished run is set), and yet
`check_satisfiability` still returns the boolean `true` — no distinguished
"inconclusive" outcome exists in the code, contradicting the claim that
neither `true` nor `false` is returned when the guard trips. -/
theorem depth_guard_still_returns_boolean :
    (checkSatRun (iterNot 102 (Formula.Atom "p")) 1000).2.2.guard = true ∧
      check_satisfiability (iterNot 102 (Formula.Atom "p")) 1000 = true := by
  refine ⟨by decide, by decide⟩

/-- C9 (amended). When the depth guard fires (`depth > 100`, i.e. fuel
exhausted), `expand_branch` returns the branch unchanged, merely recording
the guard flag; the decision call still returns the ordinary boolean
verdict computed from the resulting (possibly unsaturated) branches, and no
distinguished "inconclusive" outcome is surfaced. -/
theorem depth_guard_returns_branch_unchanged :
    ∀ (b : Branch) (st : TState) (f : Formula) (m : Nat),
      (expand_branch 0 b st).branches = [b] ∧
      (expand_branch 0 b st).st.guard = true ∧
      check_satisfiability f m = !(checkSatRun f m).1 :=
  fun _ _ _ _ => ⟨rfl, rfl, rfl⟩

/-! ## Claim C5: characterisation of the closure test -/

/-- The positive-atom extractor of `is_closed` hits exactly the
`T`-signed atoms of world `w`. -/
theorem pos_entry_iff (w : String) (t : SPF) (p : String) :
    (match t with
      | (true, w2, Formula.Atom q) => if w2 = w then some q else none
      | _ => none) = some p ↔ t = (true, w, Formula.Atom p) := by
  rcases t with ⟨s, w2, g⟩
  cases s <;> cases g <;> simp

/-- The negative-atom extractor of `is_closed` hits exactly the
`F`-signed atoms of world `w`. -/
theorem neg_entry_iff (w : String) (t : SPF) (p : String) :
    (match t with
      | (false, w2, Formula.Atom q) => if w2 = w then some q else none
      | _ => none) = some p ↔ t = (false, w, Formula.Atom p) := by
  rcases t with ⟨s, w2, g⟩
  cases s <;> cases g <;> simp

/-- The world extractor of `is_closed` hits exactly the worlds of atoms. -/
theorem world_entry_iff (t : SPF) (w : String) :
    (match t.2.2 with
      | Formula.Atom _ => some t.2.1
      | _ => none) = some w ↔ ∃ q, t.2.2 = Formula.Atom q ∧ t.2.1 = w := by
  rcases t with ⟨s, w2, g⟩
  cases g <;> simp [eq_comm]

/-- C5. A branch is reported closed iff a single world `w` and a single
atom `p` exist with both `⟨T, w, p⟩` and `⟨F, w, p⟩` on the branch; in
particular signed atoms at different worlds, and non-atomic pairs, never
close a branch (they provide no such witness). -/
theorem is_closed_iff_atomic_clash_same_world :
    ∀ (b : Branch) (acc : AccMap),
      is_closed b acc = true ↔
        ∃ w p, (true, w, Formula.Atom p) ∈ b ∧ (false, w, Formula.Atom p) ∈ b := by
  intro b acc
  simp only [is_closed, List.any_eq_true, List.mem_dedup, List.mem_filterMap, List.contains,
    List.elem_iff, pos_entry_iff, neg_entry_iff, world_entry_iff]
  constructor
  · rintro ⟨w, -, p, ⟨t, ht, rfl⟩, t2, ht2, rfl⟩
    exact ⟨w, p, ht, ht2⟩
  · rintro ⟨w, p, h1, h2⟩
    exact ⟨w, ⟨(true, w, Formula.Atom p), h1, p, rfl, rfl⟩,
      p, ⟨(true, w, Formula.Atom p), h1, rfl⟩, (false, w, Formula.Atom p), h2, rfl⟩

/-! ## Claim C6: the selection order of the expansion driver -/

/-- Shape characterisation of `isFBox`. -/
theorem isFBox_iff (t : SPF) :
    isFBox t = true ↔ ∃ w g, t = (false, w, Formula.Box g) := by
  rcases t with ⟨s, w2, f⟩
  cases s <;> cases f <;> simp [isFBox]

/-- `tryFrags` only returns `some` branches when they are nonempty. -/
theorem tryFrags_some_ne_nil (ih : Branch → TState → ExpandOut) (i : Nat) (b : Branch) :
    ∀ (frags : List (List SPF)) (st : TState) (bs : List Branch) (st2 : TState),
      tryFrags ih i b frags st = (some bs, st2) → bs ≠ [] := by
  intro frags
  induction frags with
  | nil => intro st bs st2 h; simp [tryFrags] at h
  | cons frag rest ihr =>
      intro st bs st2 h
      simp only [tryFrags] at h
      split at h
      · exact ihr _ _ _ h
      · rename_i hne
        rw [Prod.mk.injEq, Option.some.injEq] at h
        rw [← h.1]
        intro hnil
        rw [hnil] at hne
        exact hne rfl

/-- `boxLoop` only returns `some` branches when they are nonempty. -/
theorem boxLoop_some_ne_nil (ih : Branch → TState → ExpandOut) (b : Branch) :
    ∀ (entries : List (Nat × SPF)) (st : TState) (bs : List Branch) (st2 : TState),
      boxLoop ih b entries st = (some bs, st2) → bs ≠ [] := by
  intro entries
  induction entries with
  | nil => intro st bs st2 h; simp [boxLoop] at h
  | cons e rest ihr =>
      intro st bs st2 h
      obtain ⟨i, sgn, w, f⟩ := e
      simp only [boxLoop] at h
      split at h
      · exact ihr _ _ _ h
      · split at h
        · rw [Prod.mk.injEq, Option.some.injEq] at h
          rename_i heq
          exact h.1 ▸ tryFrags_some_ne_nil ih i b _ _ _ _ heq
        · exact ihr _ _ _ h

/-- `orSubLoop` produces at least one branch per disjunct when the
recursive expander does. -/
theorem orSubLoop_ne_nil (ih : Branch → TState → ExpandOut)
    (hih : ∀ b st, (ih b st).branches ≠ []) (tail : Branch) :
    ∀ (subs : List SPF) (st : TState), subs ≠ [] → (orSubLoop ih tail subs st).1 ≠ [] := by
  intro subs
  induction subs with
  | nil => intro st h; exact absurd rfl h
  | cons sub rest ihr =>
      intro st h
      simp only [orSubLoop]
      intro hnil
      rcases List.append_eq_nil.mp hnil with ⟨h1, h2⟩
      exact hih _ _ h1

/-- Shape characterisation of `isTOr`. -/
theorem isTOr_iff (t : SPF) :
    isTOr t = true ↔ ∃ w ds, t = (true, w, Formula.Or ds) := by
  rcases t with ⟨s, w2, f⟩
  cases s <;> cases f <;> simp [isTOr]

/-- For a `T Or` formula every fragment returned by `apply_rule` is a
singleton, hence nonempty. -/
theorem apply_rule_tor_frag_ne_nil (spf : SPF) (acc : AccMap)
    (h : isTOr spf = true) :
    ∀ frag ∈ (apply_rule spf.1 spf.2.1 spf.2.2 acc).1, frag ≠ [] := by
  obtain ⟨w, ds, rfl⟩ := (isTOr_iff spf).mp h
  intro frag hf
  have hx : (apply_rule (true, w, Formula.Or ds).1 (true, w, Formula.Or ds).2.1
      (true, w, Formula.Or ds).2.2 acc).1 = ds.map fun d => [(true, w, d)] := rfl
  rw [hx, List.mem_map] at hf
  obtain ⟨d, -, hd⟩ := hf
  rw [← hd]
  simp

/-- If `branchFrags` produces no branch at all, then the expanded formula
was a `T Or` and every fragment was empty. -/
theorem branchFrags_eq_nil_imp (ih : Branch → TState → ExpandOut)
    (hih : ∀ b st, (ih b st).branches ≠ []) (i : Nat) (spf : SPF) (b : Branch) :
    ∀ (frags : List (List SPF)) (st : TState),
      (branchFrags ih i spf b frags st).1 = [] →
      ∀ frag ∈ frags, isTOr spf = true ∧ frag = [] := by
  intro frags
  induction frags with
  | nil => intro st h frag hf; simp at hf
  | cons frag rest ihr =>
      intro st h frag2 hf2
      simp only [branchFrags] at h
      by_cases htor : isTOr spf = true
      · rw [if_pos htor] at h
        rcases List.append_eq_nil.mp h with ⟨h1, h2⟩
        rcases List.mem_cons.mp hf2 with rfl | hmem
        · refine ⟨htor, ?_⟩
          by_contra hne
          exact orSubLoop_ne_nil ih hih _ frag2 _ hne h1
        · exact ihr _ h2 frag2 hmem
      · rw [if_neg htor] at h
        rcases List.append_eq_nil.mp h with ⟨h1, -⟩
        exact absurd h1 (hih _ _)

/-- `mainLoop` only returns `some` branches when they are nonempty. -/
theorem mainLoop_some_ne_nil (ih : Branch → TState → ExpandOut)
    (hih : ∀ b st, (ih b st).branches ≠ []) (b : Branch) :
    ∀ (l : List SPF) (i : Nat) (st : TState) (bs : List Branch) (st2 : TState),
      mainLoop ih b i l st = (some bs, st2) → bs ≠ [] := by
  intro l
  induction l with
  | nil => intro i st bs st2 h; simp [mainLoop] at h
  | cons spf rest ihr =>
      intro i st bs st2 h
      simp only [mainLoop] at h
      split at h
      · exact ihr _ _ _ _ h
      · split at h
        · exact ihr _ _ _ _ h
        · rename_i hskip hne
          rw [Prod.mk.injEq, Option.some.injEq] at h
          intro hnil
          rw [← h.1] at hnil
          have hall := branchFrags_eq_nil_imp ih hih i spf b _ _ hnil
          rcases hx : (apply_rule spf.1 spf.2.1 spf.2.2 st.acc).1 with _ | ⟨frag, frags⟩
          · rw [hx] at hne; exact hne rfl
          · have hfrag := hall frag (by rw [hx]; exact List.mem_cons_self _ _)
            exact apply_rule_tor_frag_ne_nil spf st.acc hfrag.1 frag
              (by rw [hx]; exact List.mem_cons_self _ _) hfrag.2

/-- `expandStep` always produces at least one branch when the recursive
expander does. -/
theorem expandStep_ne_nil (ih : Branch → TState → ExpandOut)
    (hih : ∀ b st, (ih b st).branches ≠ []) (b : Branch) (st : TState) :
    (expandStep ih b st).branches ≠ [] := by
  simp only [expandStep]
  split
  · rename_i heq; exact boxLoop_some_ne_nil ih b _ _ _ _ heq
  · split
    · rename_i heq; exact mainLoop_some_ne_nil ih hih b _ _ _ _ _ heq
    · split
      · rename_i heq; exact boxLoop_some_ne_nil ih b _ _ _ _ heq
      · simp

/-- `expand_branch` always returns at least one branch (at worst the
input branch itself). -/
theorem expand_branch_ne_nil :
    ∀ (fuel : Nat) (b : Branch) (st : TState), (expand_branch fuel b st).branches ≠ [] := by
  intro fuel
  induction fuel with
  | zero => intro b st; simp [expand_branch]
  | succ fuel ihf => intro b st; exact expandStep_ne_nil (expand_branch fuel) ihf b st


/-- `tryFrags` only ever appends to the trace. -/
theorem tryFrags_trace_extends (ih : Branch → TState → ExpandOut)
    (hext : ∀ b st, ∃ t, (ih b st).st.trace = st.trace ++ t) (i : Nat) (b : Branch) :
    ∀ (frags : List (List SPF)) (st : TState) (o : Option (List Branch)) (st2 : TState),
      tryFrags ih i b frags st = (o, st2) → ∃ t, st2.trace = st.trace ++ t := by
  intro frags
  induction frags with
  | nil =>
      intro st o st2 h
      simp only [tryFrags, Prod.mk.injEq] at h
      exact ⟨[], by rw [← h.2, List.append_nil]⟩
  | cons frag rest ihr =>
      intro st o st2 h
      simp only [tryFrags] at h
      split at h
      · obtain ⟨t1, h1⟩ := hext (b.take i ++ frag ++ b.drop (i + 1)) st
        obtain ⟨t2, h2⟩ := ihr _ _ _ h
        exact ⟨t1 ++ t2, by rw [h2, h1, List.append_assoc]⟩
      · rw [Prod.mk.injEq] at h
        obtain ⟨t1, h1⟩ := hext (b.take i ++ frag ++ b.drop (i + 1)) st
        exact ⟨t1, by rw [← h.2, h1]⟩

/-- `boxLoop` only ever appends to the trace. -/
theorem boxLoop_trace_extends (ih : Branch → TState → ExpandOut)
    (hext : ∀ b st, ∃ t, (ih b st).st.trace = st.trace ++ t) (b : Branch) :
    ∀ (entries : List (Nat × SPF)) (st : TState) (o : Option (List Branch)) (st2 : TState),
      boxLoop ih b entries st = (o, st2) → ∃ t, st2.trace = st.trace ++ t := by
  intro entries
  induction entries with
  | nil =>
      intro st o st2 h
      simp only [boxLoop, Prod.mk.injEq] at h
      exact ⟨[], by rw [← h.2, List.append_nil]⟩
  | cons e rest ihr =>
      intro st o st2 h
      obtain ⟨i, sgn, w, f⟩ := e
      simp only [boxLoop] at h
      split at h
      · obtain ⟨t, ht⟩ := ihr _ _ _ h
        exact ⟨t, by rw [ht]⟩
      · split at h
        · rename_i heq
          rw [Prod.mk.injEq] at h
          obtain ⟨t1, h1⟩ := tryFrags_trace_extends ih hext i b _ _ _ _ heq
          exact ⟨(sgn, w, f) :: t1, by rw [← h.2, h1]; simp⟩
        · rename_i heq
          obtain ⟨t1, h1⟩ := tryFrags_trace_extends ih hext i b _ _ _ _ heq
          obtain ⟨t2, h2⟩ := ihr _ _ _ h
          exact ⟨(sgn, w, f) :: t1 ++ t2, by rw [h2, h1]; simp⟩

/-- `orSubLoop` only ever appends to the trace. -/
theorem orSubLoop_trace_extends (ih : Branch → TState → ExpandOut)
    (hext : ∀ b st, ∃ t, (ih b st).st.trace = st.trace ++ t) (tail : Branch) :
    ∀ (subs : List SPF) (st : TState),
      ∃ t, (orSubLoop ih tail subs st).2.trace = st.trace ++ t := by
  intro subs
  induction subs with
  | nil => intro st; exact ⟨[], by simp [orSubLoop]⟩
  | cons sub rest ihr =>
      intro st
      simp only [orSubLoop]
      obtain ⟨t1, h1⟩ := hext ([sub] ++ tail) st
      obtain ⟨t2, h2⟩ := ihr ((ih ([sub] ++ tail) st).st)
      exact ⟨t1 ++ t2, by rw [h2, h1, List.append_assoc]⟩

/-- `branchFrags` only ever appends to the trace. -/
theorem branchFrags_trace_extends (ih : Branch → TState → ExpandOut)
    (hext : ∀ b st, ∃ t, (ih b st).st.trace = st.trace ++ t) (i : Nat) (spf : SPF) (b : Branch) :
    ∀ (frags : List (List SPF)) (st : TState),
      ∃ t, (branchFrags ih i spf b frags st).2.trace = st.trace ++ t := by
  intro frags
  induction frags with
  | nil => intro st; exact ⟨[], by simp [branchFrags]⟩
  | cons frag rest ihr =>
      intro st
      simp only [branchFrags]
      split
      · obtain ⟨t1, h1⟩ := orSubLoop_trace_extends ih hext _ frag st
        obtain ⟨t2, h2⟩ := ihr (orSubLoop ih ((b.take i ++ frag ++ b.drop (i + 1)).drop (i + 1)) frag st).2
        exact ⟨t1 ++ t2, by rw [h2, h1, List.append_assoc]⟩
      · obtain ⟨t1, h1⟩ := hext (b.take i ++ frag ++ b.drop (i + 1)) st
        obtain ⟨t2, h2⟩ := ihr ((ih (b.take i ++ frag ++ b.drop (i + 1)) st).st)
        exact ⟨t1 ++ t2, by rw [h2, h1, List.append_assoc]⟩

/-- `mainLoop` only ever appends to the trace. -/
theorem mainLoop_trace_extends (ih : Branch → TState → ExpandOut)
    (hext : ∀ b st, ∃ t, (ih b st).st.trace = st.trace ++ t) (b : Branch) :
    ∀ (l : List SPF) (i : Nat) (st : TState) (o : Option (List Branch)) (st2 : TState),
      mainLoop ih b i l st = (o, st2) → ∃ t, st2.trace = st.trace ++ t := by
  intro l
  induction l with
  | nil =>
      intro i st o st2 h
      simp only [mainLoop, Prod.mk.injEq] at h
      exact ⟨[], by rw [← h.2, List.append_nil]⟩
  | cons spf rest ihr =>
      intro i st o st2 h
      simp only [mainLoop] at h
      split at h
      · exact ihr _ _ _ _ h
      · split at h
        · obtain ⟨t, ht⟩ := ihr _ _ _ _ h
          exact ⟨t, by rw [ht]⟩
        · rw [Prod.mk.injEq] at h
          obtain ⟨t1, h1⟩ := branchFrags_trace_extends ih hext i spf b _ _
          exact ⟨spf :: t1, by rw [← h.2]; rw [h1]; simp⟩

/-- `expandStep` only ever appends to the trace. -/
theorem expandStep_trace_extends (ih : Branch → TState → ExpandOut)
    (hext : ∀ b st, ∃ t, (ih b st).st.trace = st.trace ++ t) (b : Branch) (st : TState) :
    ∃ t, (expandStep ih b st).st.trace = st.trace ++ t := by
  simp only [expandStep]
  split
  · rename_i heq
    exact boxLoop_trace_extends ih hext b _ _ _ _ heq
  · rename_i heq1
    obtain ⟨t1, h1⟩ := boxLoop_trace_extends ih hext b _ _ _ _ heq1
    split
    · rename_i heq2
      obtain ⟨t2, h2⟩ := mainLoop_trace_extends ih hext b _ _ _ _ _ heq2
      exact ⟨t1 ++ t2, by rw [h2, h1, List.append_assoc]⟩
    · rename_i heq2
      obtain ⟨t2, h2⟩ := mainLoop_trace_extends ih hext b _ _ _ _ _ heq2
      split
      · rename_i heq3
        obtain ⟨t3, h3⟩ := boxLoop_trace_extends ih hext b _ _ _ _ heq3
        exact ⟨t1 ++ (t2 ++ t3), by rw [h3, h2, h1]; simp⟩
      · rename_i heq3
        obtain ⟨t3, h3⟩ := boxLoop_trace_extends ih hext b _ _ _ _ heq3
        exact ⟨t1 ++ (t2 ++ t3), by rw [h3, h2, h1]; simp⟩

/-- `expand_branch` only ever appends to the trace. -/
theorem expand_branch_trace_extends :
    ∀ (fuel : Nat) (b : Branch) (st : TState),
      ∃ t, (expand_branch fuel b st).st.trace = st.trace ++ t := by
  intro fuel
  induction fuel with
  | zero => intro b st; exact ⟨[], by simp [expand_branch]⟩
  | succ fuel ihf => intro b st; exact expandStep_trace_extends (expand_branch fuel) ihf b st

/-- The `F Box` (δ) case of `apply_rule`, as an equation. -/
theorem apply_rule_f_box (w : String) (g : Formula) (acc : AccMap) :
    apply_rule false w (Formula.Box g) acc =
      ([[(false, w ++ "." ++ toString ((successors acc w).length + 1), g)]],
        addEdge acc w (w ++ "." ++ toString ((successors acc w).length + 1)), true) := rfl

/-- `tryFrags` on a single fragment whose expansion is nonempty returns it. -/
theorem tryFrags_single (ih : Branch → TState → ExpandOut)
    (hne : ∀ b st, (ih b st).branches ≠ []) (i : Nat) (b : Branch) (frag : List SPF)
    (st : TState) :
    tryFrags ih i b [frag] st =
      (some (ih (b.take i ++ frag ++ b.drop (i + 1)) st).branches,
        (ih (b.take i ++ frag ++ b.drop (i + 1)) st).st) := by
  simp only [tryFrags]
  rw [if_neg]
  simp only [List.isEmpty_eq_true]
  exact hne _ _

/-- C6 (amended). On every branch that carries an `F Box` formula the
driver's first fired rule is the *first* `F Box` entry of the branch —
the `f_box_formulas` loop runs before anything else, so the `F Box` δ rule
has top priority and is in particular fired while unexpanded α SPFs remain;
there is no α-before-δ ordering. (`(b.enum.filter isFBox).head?` is the
first `F Box` entry; the conclusion says the firing trace of the whole
branch expansion starts with exactly that entry.) -/
theorem expand_branch_first_fires_f_box :
    ∀ (fuel : Nat) (b : Branch) (st : TState) (i : Nat) (spf : SPF),
      st.trace = [] →
      (b.enum.filter fun p => isFBox p.2).head? = some (i, spf) →
      ((expand_branch (fuel + 1) b st).st.trace).head? = some spf := by
  intro fuel b st i spf htr hhead
  obtain ⟨tl, hfb⟩ : ∃ tl, (b.enum.filter fun p => isFBox p.2) = (i, spf) :: tl := by
    cases hfl : (b.enum.filter fun p => isFBox p.2) with
    | nil => rw [hfl] at hhead; simp at hhead
    | cons x tl =>
        rw [hfl] at hhead
        rw [List.head?_cons, Option.some.injEq] at hhead
        exact ⟨tl, by rw [hhead]⟩
  have hshape : isFBox spf = true := by
    have hm : (i, spf) ∈ (b.enum.filter fun p => isFBox p.2) := by
      rw [hfb]; exact List.mem_cons_self _ _
    exact (List.mem_filter.mp hm).2
  obtain ⟨w, g, rfl⟩ := (isFBox_iff spf).mp hshape
  show ((expandStep (expand_branch fuel) b st).st.trace).head? = _
  simp only [expandStep]
  rw [hfb]
  simp only [boxLoop, apply_rule_f_box, List.isEmpty_cons, Bool.false_eq_true, if_false,
    tryFrags_single (expand_branch fuel) (fun b2 st2 => expand_branch_ne_nil fuel b2 st2)]
  obtain ⟨t, ht⟩ := expand_branch_trace_extends fuel _ _
  rw [ht, htr]
  simp

/-- C6 (counterexample). On the branch `[T 1 ~p, F 1 []p]` the driver fires
the δ rule (`F Box`) first and the α rule (`T Not`) only afterwards, even
though the unexpanded α SPF was on the branch the whole time: the firing
trace is `[F 1 []p, T 1 ~p]`. This refutes the claimed strict priority
"α before δ". -/
theorem f_box_fires_before_alpha :
    (expand_branch 101
        [(true, "1", Formula.Not (Formula.Atom "p")),
          (false, "1", Formula.Box (Formula.Atom "p"))] initState).st.trace =
      [(false, "1", Formula.Box (Formula.Atom "p")),
        (true, "1", Formula.Not (Formula.Atom "p"))] ∧
      (true, "1", Formula.Not (Formula.Atom "p")) ∈
        ([(true, "1", Formula.Not (Formula.Atom "p")),
          (false, "1", Formula.Box (Formula.Atom "p"))] : Branch) := by
  refine ⟨by decide, by decide⟩

/-- Witness for `expand_branch_first_fires_f_box` at a concrete branch:
the branch `[T 1 ~p, F 1 []p]` has its first `F Box` entry at index 1, and
the expansion trace indeed starts with it. -/
theorem expand_branch_first_fires_f_box_witness :
    initState.trace = [] ∧
      (([(true, "1", Formula.Not (Formula.Atom "p")),
          (false, "1", Formula.Box (Formula.Atom "p"))] : Branch).enum.filter
        fun p => isFBox p.2).head? =
        some (1, (false, "1", Formula.Box (Formula.Atom "p"))) ∧
      ((expand_branch 101
          [(true, "1", Formula.Not (Formula.Atom "p")),
            (false, "1", Formula.Box (Formula.Atom "p"))] initState).st.trace).head? =
        some (false, "1", Formula.Box (Formula.Atom "p")) :=
  ⟨rfl, by decide,
    expand_branch_first_fires_f_box 100
      [(true, "1", Formula.Not (Formula.Atom "p")),
        (false, "1", Formula.Box (Formula.Atom "p"))] initState 1
      (false, "1", Formula.Box (Formula.Atom "p")) rfl (by decide)⟩
